import Mathlib

/-
Verification development for the resume-scanner scoring pipeline.

The embedding models the pure text-processing core of the repository:

* `DocumentProcessor.get_document_stats` (src/utils/document_processor.py),
  built on the semantics of Python `str.split()` (whitespace words) and
  `str.split('.')` (dot-delimited segments, empty segments kept).
* `MLScorer.extract_skills`, `MLScorer.extract_education`,
  `MLScorer.extract_experience` and `MLScorer.calculate_advanced_scores`
  (src/utils/ml_scorer.py).  The regular expressions of the source are
  embedded as explicit backtracking matchers with Python `re` word-boundary
  semantics.  The TF-IDF cosine similarity is computed by an external
  library; following the specification it is treated as an external
  collaborator and enters the embedding as an explicit parameter.
* the ranking step of `process_resumes` (src/main.py), i.e. Python
  `sorted(..., reverse=True)`: a stable descending sort.

Texts are `List Char`; numeric scores are exact rationals.  Python `round`
to two decimals is modelled by rounding to the nearest multiple of 1/100
(the tie-breaking rule is irrelevant to every statement proved here).
-/

namespace ResumeScanner

/-- Python regex word character (ASCII fragment): letters, digits, underscore. -/
def isWordChar (c : Char) : Bool := c.isAlphanum || c == '_'

/-- Lowercasing of a text, modelling Python str.lower on ASCII text. -/
def lowerL (s : List Char) : List Char := s.map Char.toLower

namespace DocumentProcessor

/-- Accumulator-based splitter modelling Python str.split() with no
argument: maximal runs of non-whitespace characters, empties discarded.
The first argument holds the (reversed) current word. -/
def wordsAux : List Char → List Char → List (List Char)
  | cur, [] => if cur = [] then [] else [cur.reverse]
  | cur, c :: rest =>
    if c.isWhitespace then
      if cur = [] then wordsAux [] rest else cur.reverse :: wordsAux [] rest
    else wordsAux (c :: cur) rest

/-- Python text.split() on whitespace. -/
def pyWords (s : List Char) : List (List Char) := wordsAux [] s

/-- Python text.split(c) for the separator dot: segments between dots,
with empty segments kept; the empty text yields one empty segment. -/
def splitOnDot : List Char → List (List Char)
  | [] => [[]]
  | c :: rest =>
    if c = '.' then [] :: splitOnDot rest
    else
      match splitOnDot rest with
      | [] => [[c]]
      | seg :: segs => (c :: seg) :: segs

/-- Record returned by DocumentProcessor.get_document_stats. -/
structure DocumentStats where
  word_count : Nat
  sentence_count : Nat
  avg_word_length : ℚ
  char_count : Nat
deriving DecidableEq

/-- Embedding of DocumentProcessor.get_document_stats: word count from the
whitespace split, sentence count from the dot split, average word length
guarded against the empty word list, character count as the text length. -/
def get_document_stats (text : List Char) : DocumentStats :=
  let words := pyWords text
  { word_count := words.length
    sentence_count := (splitOnDot text).length
    avg_word_length :=
      if words = [] then 0
      else ((words.map List.length).sum : ℚ) / (words.length : ℚ)
    char_count := text.length }

theorem splitOnDot_length_pos (s : List Char) : 0 < (splitOnDot s).length := by
  induction s with
  | nil => simp [splitOnDot]
  | cons c rest ih =>
    by_cases h : c = '.'
    · simp [splitOnDot, h]
    · simp only [splitOnDot, if_neg h]
      cases hs : splitOnDot rest with
      | nil => simp
      | cons seg segs => simp

end DocumentProcessor

open DocumentProcessor

/-- C3 counterexample: on the empty string the statistics are not all
zero, because Python splitting on the dot character always produces at
least one (possibly empty) segment, so the sentence count is 1. -/
theorem stats_empty_not_all_zero :
    ¬ ((get_document_stats []).word_count = 0 ∧
       (get_document_stats []).sentence_count = 0 ∧
       (get_document_stats []).avg_word_length = 0 ∧
       (get_document_stats []).char_count = 0) := by
  decide

/-- C3 (amended): stats on the empty string gives word count 0, average
word length 0 and character count 0, but sentence count 1. -/
theorem stats_empty_amended :
    get_document_stats [] =
      { word_count := 0, sentence_count := 1, avg_word_length := 0, char_count := 0 } := by
  decide

/-- C10: for every text, the sentence count reported by
get_document_stats is at least 1, because splitting on the literal dot
character always yields at least one segment. -/
theorem sentence_count_pos (t : List Char) :
    1 ≤ (get_document_stats t).sentence_count := by
  simpa [get_document_stats] using splitOnDot_length_pos t

/-- Containment of a pattern as a contiguous substring, the semantics of
the Python expression pat in s on strings. -/
def containsSub (pat : List Char) : List Char → Bool
  | [] => pat.isPrefixOf []
  | c :: rest => pat.isPrefixOf (c :: rest) || containsSub pat rest

namespace MLScorer

/-- The education keyword table of MLScorer.extract_education, in source
order, each keyword mapped to its fixed score. -/
def education_scores : List (List Char × ℚ) :=
  [("phd".toList, 1), ("master".toList, 4/5),
   ("bachelor".toList, 3/5), ("associate".toList, 2/5)]

/-- The possessive form of a keyword: the keyword followed by an
apostrophe and the letter s, as built by the source f-string. -/
def possessive (kw : List Char) : List Char := kw ++ ['\'', 's']

/-- Embedding of MLScorer.extract_education: collect the scores of the
keywords occurring (plainly or possessively) as substrings of the
lowercased text, and return their maximum, or the 0.3 baseline when the
collection is empty. -/
def extract_education (text : List Char) : ℚ :=
  let tl := lowerL text
  let found := education_scores.filterMap fun p =>
    if containsSub p.1 tl || containsSub (possessive p.1) tl then some p.2 else none
  match found with
  | [] => 3/10
  | x :: xs => xs.foldl max x

/-- Reference form of the education score written after the words of the
specification: the maximum of the fixed scores over the keywords found,
with the baseline 0.3 folded in as the neutral starting value. -/
def educationOfSpec (t : List Char) : ℚ :=
  ((education_scores.filter fun p =>
      containsSub p.1 (lowerL t) || containsSub (possessive p.1) (lowerL t)).map
    Prod.snd).foldr max (3/10)

theorem education_props :
    (∀ t : List Char,
        3/10 ≤ extract_education t ∧ extract_education t ≤ 1 ∧
        extract_education t = educationOfSpec t) ∧
    extract_education "PhD in CS".toList = 1 := by
  refine ⟨fun t => ?_, by decide⟩
  unfold extract_education educationOfSpec
  simp only [education_scores, List.filterMap_cons, List.filterMap_nil,
    List.filter_cons, List.filter_nil, List.map_cons, List.map_nil]
  generalize (containsSub "phd".toList (lowerL t) ||
    containsSub (possessive "phd".toList) (lowerL t)) = b1
  generalize (containsSub "master".toList (lowerL t) ||
    containsSub (possessive "master".toList) (lowerL t)) = b2
  generalize (containsSub "bachelor".toList (lowerL t) ||
    containsSub (possessive "bachelor".toList) (lowerL t)) = b3
  generalize (containsSub "associate".toList (lowerL t) ||
    containsSub (possessive "associate".toList) (lowerL t)) = b4
  cases b1 <;> cases b2 <;> cases b3 <;> cases b4 <;> norm_num [max_def]

/-- C5: the education score always lies in [0.3, 1], equals the maximum
fixed keyword score over the keywords found as substrings (plainly or
possessively, baseline 0.3 when none is found), and the text containing
a doctorate keyword scores 1. -/
theorem extract_education_spec :
    (∀ t : List Char,
        3/10 ≤ extract_education t ∧ extract_education t ≤ 1 ∧
        extract_education t = educationOfSpec t) ∧
    extract_education "PhD in CS".toList = 1 :=
  education_props

/-- Numeric value of a run of decimal digit characters, the semantics of
Python int() on the captured group. -/
def parseNat (ds : List Char) : Nat :=
  ds.foldl (fun a c => a * 10 + (c.toNat - 48)) 0

/-- Literal matcher: consume the exact word at the front of the text. -/
def lit (w s : List Char) : Option (List Char) :=
  if w.isPrefixOf s then some (s.drop w.length) else none

/-- Matcher for the regex piece backslash-s-plus: at least one whitespace
character, consumed greedily (the continuation never starts with
whitespace, so greediness is forced). -/
def ws1 : List Char → Option (List Char)
  | [] => none
  | c :: rest =>
    if c.isWhitespace then some (rest.dropWhile Char.isWhitespace) else none

/-- Matcher for the alternation (experience|exp), first branch preferred. -/
def expWord (s : List Char) : Option (List Char) :=
  lit "experience".toList s <|> lit "exp".toList s

/-- Matcher for the regex tail after the year unit: an optional group of
whitespace plus the word of, then whitespace, then the experience word;
the optional group is tried first and dropped on failure, which is the
backtracking order of the source pattern. -/
def expTail (s : List Char) : Option (List Char) :=
  ((ws1 s).bind fun s1 => (lit "of".toList s1).bind fun s2 => (ws1 s2).bind expWord) <|>
    ((ws1 s).bind expWord)

/-- Matcher for (years?|yrs?) followed by the tail, trying the regex
alternatives in source order with backtracking into the alternation. -/
def yearUnit (s : List Char) : Option (List Char) :=
  ((lit "years".toList s).bind expTail) <|> ((lit "year".toList s).bind expTail) <|>
    ((lit "yrs".toList s).bind expTail) <|> ((lit "yr".toList s).bind expTail)

/-- Matcher for the optional plus sign after the digit run. -/
def dropPlus (l : List Char) : List Char :=
  match l with
  | '+' :: t => t
  | _ => l

/-- Single-position matcher for the experience pattern of
MLScorer.extract_experience.  The leading digit run, the optional plus
sign and the following whitespace are consumed greedily; giving
characters back can never enable the continuation (a digit, plus sign or
whitespace never starts the next piece), so the greedy choice is the
regex semantics.  Returns the captured number and the rest of the text
after the whole match. -/
def matchExpAt (s : List Char) : Option (Nat × List Char) :=
  let ds := s.takeWhile Char.isDigit
  if ds = [] then none
  else
    let r3 := (dropPlus (s.dropWhile Char.isDigit)).dropWhile Char.isWhitespace
    (yearUnit r3).map fun rest => (parseNat ds, rest)

theorem length_dropWhile_le (p : Char → Bool) (l : List Char) :
    (l.dropWhile p).length ≤ l.length :=
  (List.dropWhile_sublist p).length_le

theorem dropPlus_length_le (l : List Char) : (dropPlus l).length ≤ l.length := by
  unfold dropPlus
  split
  · simp only [List.length_cons]
    omega
  · omega

theorem orElse_eq_some {α : Type} {a b : Option α} {r : α}
    (h : (a <|> b) = some r) : a = some r ∨ b = some r := by
  cases a with
  | none => right; simpa using h
  | some x => left; simpa using h

theorem bind_eq_some {α β : Type} {a : Option α} {f : α → Option β} {r : β}
    (h : a.bind f = some r) : ∃ x, a = some x ∧ f x = some r := by
  cases a with
  | none => simp at h
  | some x => exact ⟨x, rfl, by simpa using h⟩

theorem lit_length_le {w s r : List Char} (h : lit w s = some r) :
    r.length ≤ s.length := by
  unfold lit at h
  split at h
  · cases h
    simp
  · cases h

theorem ws1_length_lt {s r : List Char} (h : ws1 s = some r) :
    r.length < s.length := by
  cases s with
  | nil => simp [ws1] at h
  | cons c rest =>
    by_cases hc : c.isWhitespace
    · simp only [ws1, hc, if_true, Option.some.injEq] at h
      subst h
      have := length_dropWhile_le Char.isWhitespace rest
      simp only [List.length_cons]
      omega
    · simp [ws1, hc] at h

theorem expWord_length_le {s r : List Char} (h : expWord s = some r) :
    r.length ≤ s.length := by
  rcases orElse_eq_some h with h1 | h1 <;> exact lit_length_le h1

theorem expTail_length_lt {s r : List Char} (h : expTail s = some r) :
    r.length < s.length := by
  rcases orElse_eq_some h with h1 | h1
  · obtain ⟨s1, hs1, h1⟩ := bind_eq_some h1
    obtain ⟨s2, hs2, h1⟩ := bind_eq_some h1
    obtain ⟨s3, hs3, h1⟩ := bind_eq_some h1
    calc r.length ≤ s3.length := expWord_length_le h1
      _ < s2.length := ws1_length_lt hs3
      _ ≤ s1.length := lit_length_le hs2
      _ < s.length := ws1_length_lt hs1
  · obtain ⟨s1, hs1, h1⟩ := bind_eq_some h1
    calc r.length ≤ s1.length := expWord_length_le h1
      _ < s.length := ws1_length_lt hs1

theorem yearUnit_length_lt {s r : List Char} (h : yearUnit s = some r) :
    r.length < s.length := by
  rcases orElse_eq_some h with h1 | h1
  · obtain ⟨s1, hs1, h1⟩ := bind_eq_some h1
    calc r.length < s1.length := expTail_length_lt h1
      _ ≤ s.length := lit_length_le hs1
  rcases orElse_eq_some h1 with h2 | h2
  · obtain ⟨s1, hs1, h2⟩ := bind_eq_some h2
    calc r.length < s1.length := expTail_length_lt h2
      _ ≤ s.length := lit_length_le hs1
  rcases orElse_eq_some h2 with h3 | h3
  · obtain ⟨s1, hs1, h3⟩ := bind_eq_some h3
    calc r.length < s1.length := expTail_length_lt h3
      _ ≤ s.length := lit_length_le hs1
  · obtain ⟨s1, hs1, h3⟩ := bind_eq_some h3
    calc r.length < s1.length := expTail_length_lt h3
      _ ≤ s.length := lit_length_le hs1

theorem matchExpAt_length_lt {s : List Char} {n : Nat} {r : List Char}
    (h : matchExpAt s = some (n, r)) : r.length < s.length := by
  dsimp only [matchExpAt] at h
  split at h
  · cases h
  · rename_i hds
    rw [Option.map_eq_some'] at h
    obtain ⟨rest, hy, hp⟩ := h
    cases hp
    have h1 := yearUnit_length_lt hy
    have h2 := length_dropWhile_le Char.isWhitespace
        (dropPlus (s.dropWhile Char.isDigit))
    have h3 := dropPlus_length_le (s.dropWhile Char.isDigit)
    -- the digit run is nonempty, so the digit drop is strict
    have h5 : (s.dropWhile Char.isDigit).length < s.length := by
      cases s with
      | nil => simp [List.takeWhile_nil] at hds
      | cons c cs =>
        by_cases hc : Char.isDigit c
        · simp only [List.dropWhile_cons, hc, if_true, List.length_cons]
          have := length_dropWhile_le Char.isDigit cs
          omega
        · exfalso
          simp [List.takeWhile_cons, hc] at hds
    omega

/-- Fuel-based scan modelling re.findall for the experience pattern: try
a match at each position and resume after the end of a match; the fuel,
taken to be the text length, strictly exceeds the length at every
recursive call, so it never runs out. -/
def scanExpF : Nat → List Char → List Nat
  | 0, _ => []
  | _ + 1, [] => []
  | fuel + 1, c :: rest =>
    match matchExpAt (c :: rest) with
    | some (n, after) => n :: scanExpF fuel after
    | none => scanExpF fuel rest

/-- The findall match list for the experience pattern over a text. -/
def scanExp (s : List Char) : List Nat := scanExpF s.length s

theorem scanExpF_nil (n : Nat) : scanExpF n [] = [] := by
  cases n <;> rfl

/-- Any fuel at least the text length gives the same scan, so the choice
of text length as fuel is sufficient. -/
theorem scanExpF_fuel (n : Nat) : ∀ m s, s.length ≤ n → s.length ≤ m →
    scanExpF n s = scanExpF m s := by
  induction n with
  | zero =>
    intro m s hn _
    have : s = [] := List.length_eq_zero.mp (Nat.le_zero.mp hn)
    subst this
    rw [scanExpF_nil, scanExpF_nil]
  | succ k ih =>
    intro m s hn hm
    cases s with
    | nil => rw [scanExpF_nil, scanExpF_nil]
    | cons c rest =>
      cases m with
      | zero => simp at hm
      | succ m' =>
        show (match matchExpAt (c :: rest) with
          | some (n, after) => n :: scanExpF k after
          | none => scanExpF k rest) = (match matchExpAt (c :: rest) with
          | some (n, after) => n :: scanExpF m' after
          | none => scanExpF m' rest)
        rcases hmt : matchExpAt (c :: rest) with _ | ⟨n, after⟩
        · simp only
          simp only [List.length_cons] at hn hm
          exact ih m' rest (by omega) (by omega)
        · simp only
          have hlt := matchExpAt_length_lt hmt
          simp only [List.length_cons] at hn hm hlt
          rw [ih m' after (by omega) (by omega)]

/-- Embedding of MLScorer.extract_experience: the maximum captured year
count, scaled by 1/15 and capped at 1, or 0 when the pattern never
matches. -/
def extract_experience (text : List Char) : ℚ :=
  match scanExp (lowerL text) with
  | [] => 0
  | y :: ys => min (((ys.foldl max y : ℕ) : ℚ) / 15) 1

/-- Reference form of the experience score written after the words of
the specification: the maximum matched number (expressed as a fold with
neutral element 0), linearly scaled and capped, and 0 with no match. -/
def experienceOfSpec (text : List Char) : ℚ :=
  let ns := scanExp (lowerL text)
  if ns = [] then 0 else min (((ns.foldr max 0 : ℕ) : ℚ) / 15) 1

theorem foldl_max_shift (l : List ℕ) : ∀ a b,
    l.foldl max (max a b) = max a (l.foldl max b) := by
  induction l with
  | nil => intro a b; rfl
  | cons c t ih =>
    intro a b
    show t.foldl max (max (max a b) c) = max a (t.foldl max (max b c))
    rw [max_assoc, ih]

theorem foldl_max_eq_foldr (l : List ℕ) (y : ℕ) :
    l.foldl max y = max y (l.foldr max 0) := by
  induction l generalizing y with
  | nil => simp
  | cons c t ih =>
    show t.foldl max (max y c) = max y (max c (t.foldr max 0))
    rw [foldl_max_shift, ih]

/-- C6: the experience score equals the capped linear scaling by 1/15 of
the maximum year count matched by the experience pattern, 0 when the
pattern never matches; in particular a text stating 5 years of
experience scores 5/15 and a text stating 20 years experience is capped
at 1. -/
theorem extract_experience_spec :
    (∀ t : List Char, extract_experience t = experienceOfSpec t) ∧
    extract_experience "5 years of experience".toList = 5/15 ∧
    extract_experience "20 years experience".toList = 1 := by
  refine ⟨fun t => ?_, ?_, ?_⟩
  · unfold extract_experience experienceOfSpec
    cases h : scanExp (lowerL t) with
    | nil => simp
    | cons y ys =>
      rw [if_neg (by simp)]
      simp only [List.foldr_cons]
      rw [foldl_max_eq_foldr]
  · have h : scanExp (lowerL "5 years of experience".toList) = [5] := by decide
    unfold extract_experience
    rw [h]
    norm_num [min_def]
  · have h : scanExp (lowerL "20 years experience".toList) = [20] := by decide
    unfold extract_experience
    rw [h]
    norm_num [min_def]

/-- Word-character test lifted to an optional character, with the text
edge counting as a non-word position, as in the regex boundary rule. -/
def wordOpt : Option Char → Bool
  | none => false
  | some c => isWordChar c

/-- Regex word boundary between two adjacent (possibly edge) positions:
exactly one of the two sides is a word character. -/
def bdry (a b : Option Char) : Bool := wordOpt a != wordOpt b

/-- The skill vocabulary of MLScorer.extract_skills, in the order of the
regex alternation of the source. -/
def vocab : List (List Char) :=
  ["python", "java", "javascript", "c++", "ruby", "php", "sql", "html", "css",
   "react", "angular", "vue", "node.js", "docker", "kubernetes", "aws", "azure",
   "git", "machine learning", "deep learning", "ai", "nlp"].map String.toList

/-- One alternative of the skill regex matched at the current position:
the token is a prefix of the remaining text, with a word boundary
between the previous character and the first token character and between
the last token character and the following character. -/
def matchTok (pre : Option Char) (tok s : List Char) : Bool :=
  tok.isPrefixOf s && bdry pre tok.head? && bdry tok.getLast? s[tok.length]?

/-- First vocabulary alternative matching at the current position,
which is the prioritised-alternation semantics of the source pattern. -/
def findAlt (pre : Option Char) (s : List Char) : Option (List Char) :=
  vocab.find? fun tok => matchTok pre tok s

/-- Fuel-based scan modelling re.findall for the skill pattern: at each
position try the alternation; on a match, emit the token and resume
after its end (the previous character then being the last token
character); otherwise advance one character.  The fuel, taken to be the
text length, strictly exceeds the length at every recursive call. -/
def scanSkillsF : Nat → Option Char → List Char → List (List Char)
  | 0, _, _ => []
  | _ + 1, _, [] => []
  | fuel + 1, pre, c :: rest =>
    match findAlt pre (c :: rest) with
    | some tok => tok :: scanSkillsF fuel tok.getLast? (rest.drop (tok.length - 1))
    | none => scanSkillsF fuel (some c) rest

/-- The findall match list for the skill pattern over a text. -/
def scanSkills (pre : Option Char) (s : List Char) : List (List Char) :=
  scanSkillsF s.length pre s

/-- Embedding of MLScorer.extract_skills: lowercase the text, collect the
regex matches, and keep the distinct ones (the source converts the match
list to a set and back to a list). -/
def extract_skills (text : List Char) : List (List Char) :=
  (scanSkills none (lowerL text)).dedup

/-- Occurrence of a matcher somewhere in the text: the matcher holds at
the current position or at some later position, tracking the previous
character. -/
def occursAux (m : Option Char → List Char → Bool) : Option Char → List Char → Bool
  | pre, [] => m pre []
  | pre, c :: rest => m pre (c :: rest) || occursAux m (some c) rest

/-- Occurrence of a regex-boundary match of a token anywhere in the
text, starting from a given previous character. -/
def occursTokFrom (pre : Option Char) (tok s : List Char) : Bool :=
  occursAux (fun p t => matchTok p tok t) pre s

/-- Plain whole-word match at the current position: the token is a
prefix of the remaining text and both neighbouring positions are
non-word (or text edges).  This is the specification reading of
whole-word containment. -/
def wwAt (pre : Option Char) (tok s : List Char) : Bool :=
  tok.isPrefixOf s && !wordOpt pre && !wordOpt s[tok.length]?

/-- Whole-word occurrence of a token anywhere in the text. -/
def wholeWordOccurs (tok s : List Char) : Bool :=
  occursAux (fun p t => wwAt p tok t) none s

/-- Previous character seen from position i of a text whose position 0
is preceded by pre. -/
def preIdx (pre : Option Char) (s : List Char) : Nat → Option Char
  | 0 => pre
  | i + 1 => s[i]?

theorem preIdx_cons (pre : Option Char) (c : Char) (rest : List Char) (j : Nat) :
    preIdx (some c) rest j = preIdx pre (c :: rest) (j + 1) := by
  cases j with
  | zero => simp [preIdx]
  | succ k => simp [preIdx]

/-- Occurrence of a matcher somewhere in the text, phrased by position
index: the matcher holds at some index i, seen with the previous
character at i. -/
theorem occursAux_iff (m : Option Char → List Char → Bool) :
    ∀ (s : List Char) (pre : Option Char),
      occursAux m pre s = true ↔
        ∃ i, i ≤ s.length ∧ m (preIdx pre s i) (s.drop i) = true := by
  intro s
  induction s with
  | nil =>
    intro pre
    constructor
    · intro h
      exact ⟨0, Nat.le_refl 0, h⟩
    · rintro ⟨i, hi, h⟩
      have hz : i = 0 := Nat.le_zero.mp hi
      subst hz
      exact h
  | cons c rest ih =>
    intro pre
    constructor
    · intro h
      unfold occursAux at h
      rw [Bool.or_eq_true] at h
      rcases h with h | h
      · exact ⟨0, Nat.zero_le _, h⟩
      · obtain ⟨j, hj, hm⟩ := (ih (some c)).mp h
        refine ⟨j + 1, by simp only [List.length_cons]; omega, ?_⟩
        rw [← preIdx_cons pre]
        exact hm
    · rintro ⟨i, hi, hm⟩
      unfold occursAux
      rw [Bool.or_eq_true]
      cases i with
      | zero => exact Or.inl hm
      | succ j =>
        right
        refine (ih (some c)).mpr ⟨j, by simp only [List.length_cons] at hi; omega, ?_⟩
        rw [preIdx_cons pre]
        exact hm

theorem isPrefixOf_ex : ∀ {t s : List Char}, t.isPrefixOf s = true ↔ ∃ u, t ++ u = s := by
  intro t
  induction t with
  | nil =>
    intro s
    simp [List.isPrefixOf]
  | cons a t ih =>
    intro s
    cases s with
    | nil => simp [List.isPrefixOf]
    | cons b s' =>
      simp only [List.isPrefixOf, Bool.and_eq_true, beq_iff_eq, List.cons_append, ih]
      constructor
      · rintro ⟨rfl, u, rfl⟩
        exact ⟨u, rfl⟩
      · rintro ⟨u, h⟩
        injection h with h1 h2
        exact ⟨h1, u, h2⟩

theorem drop_append_le : ∀ (A : List Char) {j : Nat} (u : List Char), j ≤ A.length →
    (A ++ u).drop j = A.drop j ++ u := by
  intro A
  induction A with
  | nil =>
    intro j u hj
    have hz : j = 0 := by simpa using hj
    subst hz
    rfl
  | cons a A' ih =>
    intro j u hj
    cases j with
    | zero => rfl
    | succ k =>
      simp only [List.cons_append, List.drop_succ_cons]
      exact ih u (by simpa using hj)

theorem prefix_of_prefix_length : ∀ (t1 t2 s : List Char), (∃ u, t1 ++ u = s) →
    (∃ u, t2 ++ u = s) → t1.length ≤ t2.length → ∃ w, t1 ++ w = t2 := by
  intro t1
  induction t1 with
  | nil =>
    intro t2 s _ _ _
    exact ⟨t2, rfl⟩
  | cons a t1' ih =>
    intro t2 s h1 h2 hl
    obtain ⟨u1, hu1⟩ := h1
    obtain ⟨u2, hu2⟩ := h2
    cases t2 with
    | nil => simp at hl
    | cons b t2' =>
      subst hu1
      rw [List.cons_append] at hu2
      injection hu2 with hb ht
      obtain ⟨w, hw⟩ := ih t2' (t1' ++ u1) ⟨u1, rfl⟩ ⟨u2, ht⟩ (by simpa using hl)
      refine ⟨w, ?_⟩
      rw [List.cons_append, hw, hb]

theorem getElem?_of_append_eq {t u s : List Char} (h : t ++ u = s) {i : Nat}
    (hi : i < t.length) : s[i]? = t[i]? := by
  subst h
  exact List.getElem?_append_left hi

theorem vocab_ne_nil : ∀ tok ∈ vocab, tok ≠ ([] : List Char) := by decide

theorem vocab_head_word : ∀ tok ∈ vocab, wordOpt tok.head? = true := by decide

theorem vocab_last_word : ∀ tok ∈ vocab, tok ≠ "c++".toList →
    wordOpt tok.getLast? = true := by decide

/-- Among the vocabulary, the only proper prefix pair is java and
javascript, and there the boundary after the shorter token fails inside
the longer one; the check is a finite computation. -/
theorem vocab_prefix_bdry : ∀ t1 ∈ vocab, ∀ t2 ∈ vocab, t1.length < t2.length →
    t1.isPrefixOf t2 = true → bdry t1.getLast? t2[t1.length]? = false := by decide

/-- No vocabulary token can start strictly inside a match of another
one: positions inside a token whose previous character is a non-word
character leave a residue (such as learning, js or a plus sign) that
neither is a prefix of a token nor has a token as a prefix; the check is
a finite computation over the vocabulary. -/
theorem vocab_no_overlap : ∀ A ∈ vocab, ∀ j < A.length, 0 < j →
    wordOpt A[j - 1]? = false → ∀ tok ∈ vocab,
      tok.isPrefixOf (A.drop j) = false ∧ (A.drop j).isPrefixOf tok = false := by decide

theorem matchTok_parts {pre : Option Char} {tok s : List Char}
    (h : matchTok pre tok s = true) :
    tok.isPrefixOf s = true ∧ bdry pre tok.head? = true ∧
      bdry tok.getLast? s[tok.length]? = true := by
  simp only [matchTok, Bool.and_eq_true] at h
  exact ⟨h.1.1, h.1.2, h.2⟩

theorem matchTok_unique_le {pre : Option Char} {t1 t2 s : List Char}
    (m1 : t1 ∈ vocab) (m2 : t2 ∈ vocab) (h1 : matchTok pre t1 s = true)
    (h2 : matchTok pre t2 s = true) (hl : t1.length ≤ t2.length) : t1 = t2 := by
  obtain ⟨hp1, _, hc1⟩ := matchTok_parts h1
  obtain ⟨hp2, _, _⟩ := matchTok_parts h2
  obtain ⟨u2, hu2⟩ := isPrefixOf_ex.mp hp2
  obtain ⟨w, hw⟩ := prefix_of_prefix_length t1 t2 s (isPrefixOf_ex.mp hp1) ⟨u2, hu2⟩ hl
  by_cases hlen : t1.length = t2.length
  · have hwnil : w = [] := by
      have hlw := congrArg List.length hw
      simp only [List.length_append] at hlw
      have : w.length = 0 := by omega
      exact List.length_eq_zero.mp this
    subst hwnil
    simpa using hw
  · exfalso
    have hlt : t1.length < t2.length := Nat.lt_of_le_of_ne hl hlen
    have hfix : s[t1.length]? = t2[t1.length]? := getElem?_of_append_eq hu2 hlt
    have hbad := vocab_prefix_bdry t1 m1 t2 m2 hlt (isPrefixOf_ex.mpr ⟨w, hw⟩)
    rw [hfix] at hc1
    rw [hc1] at hbad
    cases hbad

theorem matchTok_unique {pre : Option Char} {t1 t2 s : List Char}
    (m1 : t1 ∈ vocab) (m2 : t2 ∈ vocab) (h1 : matchTok pre t1 s = true)
    (h2 : matchTok pre t2 s = true) : t1 = t2 := by
  rcases Nat.le_total t1.length t2.length with h | h
  · exact matchTok_unique_le m1 m2 h1 h2 h
  · exact (matchTok_unique_le m2 m1 h2 h1 h).symm

theorem getElem?_drop_eq (l : List Char) : ∀ (n i : Nat), (l.drop n)[i]? = l[n + i]? := by
  induction l with
  | nil =>
    intro n i
    simp
  | cons a t ih =>
    intro n i
    cases n with
    | zero => simp
    | succ m =>
      simp only [List.drop_succ_cons, Nat.succ_add, List.getElem?_cons_succ]
      exact ih m i

/-- No vocabulary token can boundary-match strictly inside an ongoing
match of another vocabulary token: lifting of the finite
vocab_no_overlap check to arbitrary texts. -/
theorem no_overlap_inside {pre : Option Char} {A tok s : List Char} (hA : A ∈ vocab)
    (htok : tok ∈ vocab) (hm : matchTok pre A s = true) {j : Nat} (h0 : 0 < j)
    (hj : j < A.length) (hmt : matchTok (preIdx pre s j) tok (s.drop j) = true) :
    False := by
  obtain ⟨hpA, _, _⟩ := matchTok_parts hm
  obtain ⟨u, hu⟩ := isPrefixOf_ex.mp hpA
  obtain ⟨hpt, hbt, _⟩ := matchTok_parts hmt
  have hhead := vocab_head_word tok htok
  have hpre_word : wordOpt (preIdx pre s j) = false := by
    unfold bdry at hbt
    cases hw : wordOpt (preIdx pre s j)
    · rfl
    · rw [hw, hhead] at hbt
      simp at hbt
  have hpidx : preIdx pre s j = A[j - 1]? := by
    cases j with
    | zero => exact absurd h0 (Nat.lt_irrefl 0)
    | succ k =>
      show s[k]? = A[k + 1 - 1]?
      simp only [Nat.add_sub_cancel]
      exact getElem?_of_append_eq hu (by omega)
  rw [hpidx] at hpre_word
  have hAdrop : A.drop j ++ u = s.drop j := by
    rw [← hu]
    exact (drop_append_le A u (Nat.le_of_lt hj)).symm
  have hcore := vocab_no_overlap A hA j hj h0 hpre_word tok htok
  obtain ⟨ut, hut⟩ := isPrefixOf_ex.mp hpt
  rcases Nat.le_total tok.length (A.drop j).length with hle | hle
  · obtain ⟨w, hw⟩ := prefix_of_prefix_length tok (A.drop j) (s.drop j) ⟨ut, hut⟩ ⟨u, hAdrop⟩ hle
    have htrue : tok.isPrefixOf (A.drop j) = true := isPrefixOf_ex.mpr ⟨w, hw⟩
    rw [hcore.1] at htrue
    cases htrue
  · obtain ⟨w, hw⟩ := prefix_of_prefix_length (A.drop j) tok (s.drop j) ⟨u, hAdrop⟩ ⟨ut, hut⟩ hle
    have htrue : (A.drop j).isPrefixOf tok = true := isPrefixOf_ex.mpr ⟨w, hw⟩
    rw [hcore.2] at htrue
    cases htrue

theorem preIdx_shift {pre : Option Char} {A u s : List Char} (hA : A ≠ [])
    (huu : A ++ u = s) (i' : Nat) :
    preIdx A.getLast? (s.drop A.length) i' = preIdx pre s (A.length + i') := by
  obtain ⟨m, hm⟩ : ∃ m, A.length = m + 1 := by
    cases A with
    | nil => exact absurd rfl hA
    | cons a t => exact ⟨t.length, rfl⟩
  cases i' with
  | zero =>
    show A.getLast? = preIdx pre s (A.length + 0)
    rw [Nat.add_zero, hm]
    show A.getLast? = s[m]?
    rw [getElem?_of_append_eq huu (by omega), List.getLast?_eq_getElem?, hm]
    simp
  | succ k =>
    show (s.drop A.length)[k]? = preIdx pre s (A.length + (k + 1))
    have harr : A.length + (k + 1) = (A.length + k) + 1 := by omega
    rw [harr]
    show (s.drop A.length)[k]? = s[A.length + k]?
    exact getElem?_drop_eq s A.length k

theorem drop_shift (A s : List Char) (i' : Nat) :
    (s.drop A.length).drop i' = s.drop (A.length + i') := by
  rw [List.drop_drop]

/-- Boundary occurrences of a token at or beyond the end of a match of A
correspond exactly to occurrences in the text after the match, seen with
the last character of A as the previous character. -/
theorem occurs_suffix_iff {pre : Option Char} {A s : List Char} (hA : A ≠ [])
    (hu : ∃ u, A ++ u = s) (tok : List Char) :
    (∃ i, A.length ≤ i ∧ i ≤ s.length ∧
        matchTok (preIdx pre s i) tok (s.drop i) = true) ↔
      occursTokFrom A.getLast? tok (s.drop A.length) = true := by
  obtain ⟨u, huu⟩ := hu
  rw [occursTokFrom, occursAux_iff]
  constructor
  · rintro ⟨i, hAi, his, hm⟩
    refine ⟨i - A.length, ?_, ?_⟩
    · rw [List.length_drop]
      omega
    · have hi : i = A.length + (i - A.length) := by omega
      rw [preIdx_shift hA huu, drop_shift, ← hi]
      exact hm
  · rintro ⟨i', hi', hm⟩
    rw [List.length_drop] at hi'
    have hsl : A.length ≤ s.length := by
      have := congrArg List.length huu
      simp only [List.length_append] at this
      omega
    refine ⟨A.length + i', by omega, by omega, ?_⟩
    rw [← preIdx_shift hA huu, ← drop_shift]
    exact hm

theorem matchTok_nil {pre : Option Char} {tok : List Char} (h : tok ≠ []) :
    matchTok pre tok [] = false := by
  cases tok with
  | nil => exact absurd rfl h
  | cons a t =>
    unfold matchTok
    simp [List.isPrefixOf]

theorem drop_cons_pred {c : Char} {rest A : List Char} (hA : A ≠ []) :
    (c :: rest).drop A.length = rest.drop (A.length - 1) := by
  obtain ⟨m, hm⟩ : ∃ m, A.length = m + 1 := by
    cases A with
    | nil => exact absurd rfl hA
    | cons a t => exact ⟨t.length, rfl⟩
  rw [hm]
  simp

/-- Completeness of the findall scan: every vocabulary token with a
boundary occurrence in the text is collected, for any sufficient fuel.
The prioritised alternation can never hide an occurrence, by the
uniqueness of the match at a position and the no-overlap property of the
vocabulary. -/
theorem scanSkillsF_complete : ∀ (n : Nat) (s : List Char) (pre : Option Char)
    (tok : List Char), s.length ≤ n → tok ∈ vocab →
    occursTokFrom pre tok s = true → tok ∈ scanSkillsF n pre s := by
  intro n
  induction n with
  | zero =>
    intro s pre tok hn htok h
    have hs : s = [] := List.length_eq_zero.mp (Nat.le_zero.mp hn)
    subst hs
    rw [occursTokFrom] at h
    unfold occursAux at h
    rw [matchTok_nil (vocab_ne_nil tok htok)] at h
    cases h
  | succ k ih =>
    intro s pre tok hn htok h
    cases s with
    | nil =>
      rw [occursTokFrom] at h
      unfold occursAux at h
      rw [matchTok_nil (vocab_ne_nil tok htok)] at h
      cases h
    | cons c rest =>
      obtain ⟨i, hi, hm⟩ := (occursAux_iff _ (c :: rest) pre).mp h
      have hunf : scanSkillsF (k + 1) pre (c :: rest) =
          (match findAlt pre (c :: rest) with
            | some A => A :: scanSkillsF k A.getLast? (rest.drop (A.length - 1))
            | none => scanSkillsF k (some c) rest) := rfl
      rw [hunf]
      rcases hf : findAlt pre (c :: rest) with _ | A
      · simp only
        have hne : ∀ x ∈ vocab, ¬ (matchTok pre x (c :: rest) = true) := by
          rw [findAlt] at hf
          exact List.find?_eq_none.mp hf
        cases i with
        | zero => exact absurd hm (hne tok htok)
        | succ j =>
          simp only [List.length_cons] at hn hi
          apply ih rest (some c) tok (by omega) htok
          apply (occursAux_iff _ rest (some c)).mpr
          refine ⟨j, by omega, ?_⟩
          rw [preIdx_cons pre]
          exact hm
      · simp only
        rw [findAlt] at hf
        have hmA : matchTok pre A (c :: rest) = true := by simpa using List.find?_some hf
        have hAv : A ∈ vocab := List.mem_of_find?_eq_some hf
        have hAne := vocab_ne_nil A hAv
        rcases Nat.lt_or_ge i A.length with hlt | hge
        · rcases Nat.eq_zero_or_pos i with hz | hpos
          · subst hz
            have heq : tok = A := matchTok_unique htok hAv hm hmA
            subst heq
            exact List.mem_cons_self _ _
          · exact (no_overlap_inside hAv htok hmA hpos hlt hm).elim
        · obtain ⟨hpA, _, _⟩ := matchTok_parts hmA
          have hex := isPrefixOf_ex.mp hpA
          have hocc := (occurs_suffix_iff hAne hex tok).mp ⟨i, hge, hi, hm⟩
          rw [drop_cons_pred hAne] at hocc
          refine List.mem_cons_of_mem _ (ih _ _ _ ?_ htok hocc)
          rw [List.length_drop]
          simp only [List.length_cons] at hn
          have hAlen : 1 ≤ A.length := by
            cases A with
            | nil => exact absurd rfl hAne
            | cons a t => simp
          omega

/-- Soundness of the findall scan: every collected token is a vocabulary
token with a boundary occurrence in the text. -/
theorem scanSkillsF_sound : ∀ (n : Nat) (s : List Char) (pre : Option Char)
    (tok : List Char), tok ∈ scanSkillsF n pre s →
      tok ∈ vocab ∧ occursTokFrom pre tok s = true := by
  intro n
  induction n with
  | zero =>
    intro s pre tok h
    simp [scanSkillsF] at h
  | succ k ih =>
    intro s pre tok h
    cases s with
    | nil => simp [scanSkillsF] at h
    | cons c rest =>
      have hunf : scanSkillsF (k + 1) pre (c :: rest) =
          (match findAlt pre (c :: rest) with
            | some A => A :: scanSkillsF k A.getLast? (rest.drop (A.length - 1))
            | none => scanSkillsF k (some c) rest) := rfl
      rw [hunf] at h
      rcases hf : findAlt pre (c :: rest) with _ | A
      · rw [hf] at h
        obtain ⟨hv, hocc⟩ := ih rest (some c) tok h
        refine ⟨hv, ?_⟩
        rw [occursTokFrom]
        unfold occursAux
        rw [Bool.or_eq_true]
        right
        exact hocc
      · rw [hf] at h
        rw [findAlt] at hf
        have hmA : matchTok pre A (c :: rest) = true := by simpa using List.find?_some hf
        have hAv : A ∈ vocab := List.mem_of_find?_eq_some hf
        rcases List.mem_cons.mp h with heq | h'
        · subst heq
          refine ⟨hAv, ?_⟩
          rw [occursTokFrom]
          unfold occursAux
          rw [Bool.or_eq_true]
          left
          exact hmA
        · obtain ⟨hv, hocc⟩ := ih _ _ _ h'
          refine ⟨hv, ?_⟩
          have hAne := vocab_ne_nil A hAv
          obtain ⟨hpA, _, _⟩ := matchTok_parts hmA
          have hex := isPrefixOf_ex.mp hpA
          rw [← drop_cons_pred hAne] at hocc
          obtain ⟨i, _, hle, hm⟩ := (occurs_suffix_iff hAne hex tok).mpr hocc
          exact (occursAux_iff _ _ pre).mpr ⟨i, hle, hm⟩

theorem occursAux_congr (m1 m2 : Option Char → List Char → Bool)
    (h : ∀ p t, m1 p t = m2 p t) : ∀ (s : List Char) (pre : Option Char),
      occursAux m1 pre s = occursAux m2 pre s := by
  intro s
  induction s with
  | nil =>
    intro pre
    exact h pre []
  | cons c rest ih =>
    intro pre
    unfold occursAux
    rw [h, ih]

/-- For a token whose first and last characters are word characters,
the regex boundary match coincides with the plain whole-word match. -/
theorem matchTok_eq_wwAt {tok : List Char} (hh : wordOpt tok.head? = true)
    (hl : wordOpt tok.getLast? = true) (pre : Option Char) (s : List Char) :
    matchTok pre tok s = wwAt pre tok s := by
  unfold matchTok wwAt bdry
  rw [hh, hl]
  cases hp : wordOpt pre <;> cases hq : wordOpt s[tok.length]? <;> simp

/-- C4 counterexample: the token c++ is in the vocabulary and occurs as
a whole word in the text, yet it is not extracted, because the regex
word boundary after the final plus sign requires the next character to
be a word character. -/
theorem extract_skills_cpp_missed :
    "c++".toList ∈ vocab ∧
    wholeWordOccurs "c++".toList (lowerL "I know C++".toList) = true ∧
    "c++".toList ∉ extract_skills "I know C++".toList := by
  decide

/-- C4 (amended): every vocabulary token other than c++ occurring as a
whole word in the lowercased text is extracted, and every extracted
element is a vocabulary token with a regex-boundary occurrence in the
lowercased text (for c++ such an occurrence requires a following word
character, as in c++11). -/
theorem extract_skills_amended (text : List Char) :
    (∀ tok, tok ∈ vocab → tok ≠ "c++".toList →
        wholeWordOccurs tok (lowerL text) = true → tok ∈ extract_skills text) ∧
    (∀ tok, tok ∈ extract_skills text →
        tok ∈ vocab ∧ occursTokFrom none tok (lowerL text) = true) := by
  constructor
  · intro tok hv hne hww
    unfold extract_skills scanSkills
    rw [List.mem_dedup]
    apply scanSkillsF_complete _ _ _ _ (Nat.le_refl _) hv
    have hcongr := occursAux_congr (fun p t => matchTok p tok t)
      (fun p t => wwAt p tok t)
      (fun p t => matchTok_eq_wwAt (vocab_head_word tok hv) (vocab_last_word tok hv hne) p t)
      (lowerL text) none
    unfold occursTokFrom
    rw [hcongr]
    exact hww
  · intro tok hmem
    unfold extract_skills scanSkills at hmem
    rw [List.mem_dedup] at hmem
    exact scanSkillsF_sound _ _ _ _ hmem

/-- C4 witness: the amended statement applied to a concrete text in
which the token python occurs as a whole word (in mixed case). -/
theorem extract_skills_amended_witness :
    "python".toList ∈ extract_skills "I use Python daily".toList :=
  (extract_skills_amended "I use Python daily".toList).1 "python".toList
    (by decide) (by decide) (by decide)

/-- Record of the score dictionary returned by
MLScorer.calculate_advanced_scores: the five rounded percentage scores
and the two skill lists (held as sets, the source converts sets to lists
in unspecified order). -/
structure Scores where
  content_similarity : ℚ
  skills_match : ℚ
  education_level : ℚ
  experience_level : ℚ
  overall_score : ℚ
  matched_skills : Finset (List Char)
  missing_skills : Finset (List Char)
deriving DecidableEq

/-- Python round to two decimal places on exact rationals: the nearest
multiple of 1/100.  Python rounds ties to even on binary floats; no
statement proved here depends on the tie rule, so the Mathlib round is
used. -/
def pyRound2 (q : ℚ) : ℚ := ((round (q * 100) : ℤ) : ℚ) / 100

/-- The skill set of a text: the distinct extracted skills, as built by
set(extract_skills(...)) in the source. -/
def skillSet (text : List Char) : Finset (List Char) := (extract_skills text).toFinset

/-- The skills sub-score of calculate_advanced_scores before scaling:
intersection size over job-skill count, guarded by the Python truthiness
test on the job skill set. -/
def skills_score (job_desc resume : List Char) : ℚ :=
  if skillSet job_desc ≠ ∅ then
    ((skillSet job_desc ∩ skillSet resume).card : ℚ) / ((skillSet job_desc).card : ℚ)
  else 0

/-- Embedding of MLScorer.calculate_advanced_scores.  The TF-IDF cosine
similarity of the two documents is computed by an external library
(scikit-learn); following the specification it is an external
collaborator whose value enters as the content_score parameter with
contract 0 ≤ content_score ≤ 1, and 0 for termless documents.  All other
components are computed from the texts as in the source, each reported
field scaled to a percentage and rounded to two decimals. -/
def calculate_advanced_scores (content_score : ℚ) (job_desc resume : List Char) :
    Scores :=
  let job_skills := skillSet job_desc
  let resume_skills := skillSet resume
  let skills_sc := skills_score job_desc resume
  let education_score := extract_education resume
  let experience_score := extract_experience resume
  { content_similarity := pyRound2 (content_score * 100)
    skills_match := pyRound2 (skills_sc * 100)
    education_level := pyRound2 (education_score * 100)
    experience_level := pyRound2 (experience_score * 100)
    overall_score := pyRound2 ((content_score * (3/10) + skills_sc * (3/10) +
      education_score * (2/10) + experience_score * (2/10)) * 100)
    matched_skills := job_skills ∩ resume_skills
    missing_skills := job_skills \ resume_skills }

theorem round_mono_q {a b : ℚ} (h : a ≤ b) : round a ≤ round b := by
  rw [round_eq, round_eq]
  exact Int.floor_le_floor (by linarith)

theorem pyRound2_nonneg {q : ℚ} (h : 0 ≤ q) : 0 ≤ pyRound2 q := by
  unfold pyRound2
  have h1 : round ((0 : ℚ)) ≤ round (q * 100) := round_mono_q (by nlinarith)
  rw [round_zero] at h1
  have h2 : (0 : ℚ) ≤ ((round (q * 100) : ℤ) : ℚ) := by exact_mod_cast h1
  linarith

theorem pyRound2_le100 {q : ℚ} (h : q ≤ 100) : pyRound2 q ≤ 100 := by
  unfold pyRound2
  have h1 : round (q * 100) ≤ round (((10000 : ℤ) : ℚ)) := round_mono_q (by push_cast; linarith)
  rw [round_intCast] at h1
  have h2 : ((round (q * 100) : ℤ) : ℚ) ≤ 10000 := by exact_mod_cast h1
  linarith

theorem abs_pyRound2_sub (q : ℚ) : |pyRound2 q - q| ≤ 1/200 := by
  have h := abs_sub_round (q * 100)
  rw [abs_le] at h ⊢
  unfold pyRound2
  constructor <;> [linarith; linarith]

theorem skills_score_bounds (jd r : List Char) :
    0 ≤ skills_score jd r ∧ skills_score jd r ≤ 1 := by
  unfold skills_score
  split
  · rename_i hne
    have hpos : 0 < ((skillSet jd).card : ℚ) := by
      have h1 : (skillSet jd).Nonempty := Finset.nonempty_iff_ne_empty.mpr hne
      have h2 := Finset.card_pos.mpr h1
      exact_mod_cast h2
    constructor
    · apply div_nonneg _ (le_of_lt hpos)
      exact_mod_cast Nat.zero_le _
    · rw [div_le_one hpos]
      have hsub : (skillSet jd ∩ skillSet r).card ≤ (skillSet jd).card :=
        Finset.card_le_card Finset.inter_subset_left
      exact_mod_cast hsub
  · norm_num

theorem extract_experience_bounds (t : List Char) :
    0 ≤ extract_experience t ∧ extract_experience t ≤ 1 := by
  unfold extract_experience
  cases h : scanExp (lowerL t) with
  | nil => norm_num
  | cons y ys =>
    constructor
    · apply le_min
      · positivity
      · norm_num
    · exact min_le_right _ _

/-- Rounding commutes with the weighted combination up to 1/100: the
rounded overall percentage differs from the same weighted combination of
the four rounded percentages by at most one hundredth. -/
theorem weighted_round_close (c s e x : ℚ) :
    |pyRound2 ((c * (3/10) + s * (3/10) + e * (2/10) + x * (2/10)) * 100) -
      ((3/10) * pyRound2 (c * 100) + (3/10) * pyRound2 (s * 100) +
       (2/10) * pyRound2 (e * 100) + (2/10) * pyRound2 (x * 100))| ≤ 1/100 := by
  have h0 := abs_pyRound2_sub ((c * (3/10) + s * (3/10) + e * (2/10) + x * (2/10)) * 100)
  have h1 := abs_pyRound2_sub (c * 100)
  have h2 := abs_pyRound2_sub (s * 100)
  have h3 := abs_pyRound2_sub (e * 100)
  have h4 := abs_pyRound2_sub (x * 100)
  rw [abs_le] at h0 h1 h2 h3 h4 ⊢
  constructor <;> linarith

/-- C1: for any external content similarity in the unit interval and any
pair of texts, the overall score lies in [0, 100], equals the weighted
sum with weights 0.3, 0.3, 0.2, 0.2 of the four raw sub-scores scaled
to a percentage and rounded to two decimals, and agrees with the same
weighted combination of the four reported rounded sub-scores within one
hundredth. -/
theorem overall_score_spec (content_score : ℚ) (job_desc resume : List Char)
    (hc0 : 0 ≤ content_score) (hc1 : content_score ≤ 1) :
    0 ≤ (calculate_advanced_scores content_score job_desc resume).overall_score ∧
    (calculate_advanced_scores content_score job_desc resume).overall_score ≤ 100 ∧
    (calculate_advanced_scores content_score job_desc resume).overall_score =
      pyRound2 ((content_score * (3/10) + skills_score job_desc resume * (3/10) +
        extract_education resume * (2/10) + extract_experience resume * (2/10)) * 100) ∧
    |(calculate_advanced_scores content_score job_desc resume).overall_score -
        ((3/10) * (calculate_advanced_scores content_score job_desc resume).content_similarity +
         (3/10) * (calculate_advanced_scores content_score job_desc resume).skills_match +
         (2/10) * (calculate_advanced_scores content_score job_desc resume).education_level +
         (2/10) * (calculate_advanced_scores content_score job_desc resume).experience_level)| ≤
      1/100 := by
  obtain ⟨hs0, hs1⟩ := skills_score_bounds job_desc resume
  obtain ⟨he0, he1, -⟩ := education_props.1 resume
  obtain ⟨hx0, hx1⟩ := extract_experience_bounds resume
  have hov : (calculate_advanced_scores content_score job_desc resume).overall_score =
      pyRound2 ((content_score * (3/10) + skills_score job_desc resume * (3/10) +
        extract_education resume * (2/10) + extract_experience resume * (2/10)) * 100) := rfl
  have hcs : (calculate_advanced_scores content_score job_desc resume).content_similarity =
      pyRound2 (content_score * 100) := rfl
  have hsm : (calculate_advanced_scores content_score job_desc resume).skills_match =
      pyRound2 (skills_score job_desc resume * 100) := rfl
  have hel : (calculate_advanced_scores content_score job_desc resume).education_level =
      pyRound2 (extract_education resume * 100) := rfl
  have hxl : (calculate_advanced_scores content_score job_desc resume).experience_level =
      pyRound2 (extract_experience resume * 100) := rfl
  refine ⟨?_, ?_, hov, ?_⟩
  · rw [hov]
    apply pyRound2_nonneg
    nlinarith
  · rw [hov]
    apply pyRound2_le100
    nlinarith
  · rw [hov, hcs, hsm, hel, hxl]
    exact weighted_round_close content_score (skills_score job_desc resume)
      (extract_education resume) (extract_experience resume)

/-- C1 witness: the theorem applied to the empty texts with content
similarity one half. -/
theorem overall_score_spec_witness :
    (0 ≤ (1/2 : ℚ)) ∧ ((1/2 : ℚ) ≤ 1) ∧
      (0 ≤ (calculate_advanced_scores (1/2) [] []).overall_score ∧
       (calculate_advanced_scores (1/2) [] []).overall_score ≤ 100 ∧
       (calculate_advanced_scores (1/2) [] []).overall_score =
         pyRound2 (((1/2 : ℚ) * (3/10) + skills_score [] [] * (3/10) +
           extract_education [] * (2/10) + extract_experience [] * (2/10)) * 100) ∧
       |(calculate_advanced_scores (1/2) [] []).overall_score -
           ((3/10) * (calculate_advanced_scores (1/2) [] []).content_similarity +
            (3/10) * (calculate_advanced_scores (1/2) [] []).skills_match +
            (2/10) * (calculate_advanced_scores (1/2) [] []).education_level +
            (2/10) * (calculate_advanced_scores (1/2) [] []).experience_level)| ≤ 1/100) :=
  ⟨by norm_num, by norm_num,
    overall_score_spec (1/2) [] [] (by norm_num) (by norm_num)⟩

/-- C7: the unit-interval skills sub-score equals the intersection ratio
when the job description yields at least one recognised skill and 0
otherwise; under the guard the denominator is nonzero, so the division
branch never divides by zero; the reported skills_match field is this
sub-score scaled and rounded. -/
theorem skills_match_spec (job_desc resume : List Char) :
    (skillSet job_desc ≠ ∅ →
        skills_score job_desc resume =
          ((skillSet job_desc ∩ skillSet resume).card : ℚ) /
            ((skillSet job_desc).card : ℚ) ∧
        ((skillSet job_desc).card : ℚ) ≠ 0) ∧
    (skillSet job_desc = ∅ → skills_score job_desc resume = 0) ∧
    (∀ c : ℚ, (calculate_advanced_scores c job_desc resume).skills_match =
        pyRound2 (skills_score job_desc resume * 100)) := by
  refine ⟨fun hne => ⟨?_, ?_⟩, fun he => ?_, fun c => rfl⟩
  · unfold skills_score
    rw [if_pos hne]
  · have h1 : (skillSet job_desc).Nonempty := Finset.nonempty_iff_ne_empty.mpr hne
    have h2 := Finset.card_pos.mpr h1
    exact_mod_cast Nat.pos_iff_ne_zero.mp h2
  · unfold skills_score
    rw [if_neg (by simp [he])]

/-- C7 witness: the theorem applied to a job description and resume that
both contain the skill python. -/
theorem skills_match_spec_witness :
    skillSet "python".toList ≠ ∅ ∧
    (skills_score "python".toList "python".toList =
        ((skillSet "python".toList ∩ skillSet "python".toList).card : ℚ) /
          ((skillSet "python".toList).card : ℚ) ∧
     ((skillSet "python".toList).card : ℚ) ≠ 0) :=
  ⟨by decide, (skills_match_spec "python".toList "python".toList).1 (by decide)⟩

/-- C8: the matched and missing skill sets of calculate_advanced_scores
partition the job skill set: their union is the job skill set, they are
disjoint, and they equal the intersection with and the set difference
from the resume skill set. -/
theorem skill_sets_partition (content_score : ℚ) (job_desc resume : List Char) :
    (calculate_advanced_scores content_score job_desc resume).matched_skills ∪
        (calculate_advanced_scores content_score job_desc resume).missing_skills =
      skillSet job_desc ∧
    (calculate_advanced_scores content_score job_desc resume).matched_skills ∩
        (calculate_advanced_scores content_score job_desc resume).missing_skills = ∅ ∧
    (calculate_advanced_scores content_score job_desc resume).matched_skills =
      skillSet job_desc ∩ skillSet resume ∧
    (calculate_advanced_scores content_score job_desc resume).missing_skills =
      skillSet job_desc \ skillSet resume := by
  refine ⟨?_, ?_, rfl, rfl⟩
  · show skillSet job_desc ∩ skillSet resume ∪ skillSet job_desc \ skillSet resume =
      skillSet job_desc
    ext a
    simp only [Finset.mem_union, Finset.mem_inter, Finset.mem_sdiff]
    tauto
  · show (skillSet job_desc ∩ skillSet resume) ∩
        (skillSet job_desc \ skillSet resume) = ∅
    ext a
    simp only [Finset.mem_inter, Finset.mem_sdiff, Finset.not_mem_empty, iff_false]
    tauto

theorem pyRound2_intCast (n : ℤ) : pyRound2 ((n : ℚ)) = ((n : ℚ)) := by
  unfold pyRound2
  rw [show ((n : ℚ) * 100) = (((100 * n : ℤ) : ℚ)) by push_cast; ring, round_intCast]
  push_cast
  ring

/-- Full evaluation of the composite scorer on empty job description and
empty resume, with the contractual external similarity 0: content,
skills and experience come out 0, education is the 0.3 baseline (30 as a
percentage), and the overall score is 6. -/
theorem empty_eval :
    (calculate_advanced_scores 0 [] []).content_similarity = 0 ∧
    (calculate_advanced_scores 0 [] []).skills_match = 0 ∧
    (calculate_advanced_scores 0 [] []).education_level = 30 ∧
    (calculate_advanced_scores 0 [] []).experience_level = 0 ∧
    (calculate_advanced_scores 0 [] []).overall_score = 6 ∧
    (calculate_advanced_scores 0 [] []).matched_skills = ∅ ∧
    (calculate_advanced_scores 0 [] []).missing_skills = ∅ := by
  have hskl : extract_skills ([] : List Char) = [] := by decide
  have hsk : skillSet ([] : List Char) = ∅ := by
    simp [skillSet, hskl]
  have h1 : (containsSub "phd".toList (lowerL []) ||
      containsSub (possessive "phd".toList) (lowerL [])) = false := by decide
  have h2 : (containsSub "master".toList (lowerL []) ||
      containsSub (possessive "master".toList) (lowerL [])) = false := by decide
  have h3 : (containsSub "bachelor".toList (lowerL []) ||
      containsSub (possessive "bachelor".toList) (lowerL [])) = false := by decide
  have h4 : (containsSub "associate".toList (lowerL []) ||
      containsSub (possessive "associate".toList) (lowerL [])) = false := by decide
  have hed : extract_education ([] : List Char) = 3/10 := by
    unfold extract_education
    simp only [education_scores, List.filterMap_cons, List.filterMap_nil, h1, h2, h3, h4,
      Bool.false_eq_true, if_false]
  have hexs : scanExp (lowerL []) = [] := by decide
  have hex : extract_experience ([] : List Char) = 0 := by
    unfold extract_experience
    rw [hexs]
  have hss : skills_score [] [] = 0 := by
    unfold skills_score
    rw [if_neg (by simp [hsk])]
  refine ⟨?_, ?_, ?_, ?_, ?_, ?_, ?_⟩
  · show pyRound2 ((0 : ℚ) * 100) = 0
    rw [show ((0 : ℚ) * 100) = (((0 : ℤ) : ℚ)) by norm_num, pyRound2_intCast]
    norm_num
  · show pyRound2 (skills_score [] [] * 100) = 0
    rw [hss, show ((0 : ℚ) * 100) = (((0 : ℤ) : ℚ)) by norm_num, pyRound2_intCast]
    norm_num
  · show pyRound2 (extract_education [] * 100) = 30
    rw [hed, show ((3/10 : ℚ) * 100) = (((30 : ℤ) : ℚ)) by norm_num, pyRound2_intCast]
    norm_num
  · show pyRound2 (extract_experience [] * 100) = 0
    rw [hex, show ((0 : ℚ) * 100) = (((0 : ℤ) : ℚ)) by norm_num, pyRound2_intCast]
    norm_num
  · show pyRound2 (((0 : ℚ) * (3/10) + skills_score [] [] * (3/10) +
      extract_education [] * (2/10) + extract_experience [] * (2/10)) * 100) = 6
    rw [hss, hed, hex,
      show (((0 : ℚ) * (3/10) + 0 * (3/10) + (3/10) * (2/10) + 0 * (2/10)) * 100) =
        (((6 : ℤ) : ℚ)) by norm_num, pyRound2_intCast]
    norm_num
  · show skillSet [] ∩ skillSet [] = ∅
    rw [hsk]
    simp
  · show skillSet [] \ skillSet [] = ∅
    rw [hsk]
    simp

/-- C2 counterexample: on empty job description and empty resume, with
the contractual similarity 0, the returned scores are not all zero: the
education level is the baseline 30 and the overall score is 6. -/
theorem empty_inputs_not_zero :
    ¬ ((calculate_advanced_scores 0 [] []).education_level = 0 ∧
       (calculate_advanced_scores 0 [] []).overall_score = 0) := by
  intro h
  have h3 := empty_eval.2.2.1
  rw [h.1] at h3
  norm_num at h3

/-- C2 (amended): with the external similarity meeting its contract
(value 0 on termless documents, no exception), calculate_advanced_scores
is total on empty inputs and yields zero content, skills and experience
scores, but the education baseline 30 and hence overall score 6 rather
than all-zero scores; the skill sets are empty. -/
theorem empty_inputs_amended :
    (calculate_advanced_scores 0 [] []).content_similarity = 0 ∧
    (calculate_advanced_scores 0 [] []).skills_match = 0 ∧
    (calculate_advanced_scores 0 [] []).education_level = 30 ∧
    (calculate_advanced_scores 0 [] []).experience_level = 0 ∧
    (calculate_advanced_scores 0 [] []).overall_score = 6 ∧
    (calculate_advanced_scores 0 [] []).matched_skills = ∅ ∧
    (calculate_advanced_scores 0 [] []).missing_skills = ∅ :=
  empty_eval

end MLScorer

namespace Main

open MLScorer

/-- Per-resume record assembled by process_resumes.  The extracted text,
document statistics and entity map come from external collaborators and
do not influence the ranking, so the record keeps the fields the
ranking reads: the filename and the score record. -/
structure ResumeResult where
  filename : List Char
  scores : Scores
deriving DecidableEq

/-- The comparison used by the ranking: a precedes b when the overall
score of b is at most that of a. -/
def rankLE (a b : ResumeResult) : Prop :=
  b.scores.overall_score ≤ a.scores.overall_score

instance : DecidableRel rankLE := fun a b =>
  inferInstanceAs (Decidable (b.scores.overall_score ≤ a.scores.overall_score))

/-- The ranking step of process_resumes: Python sorted on the overall
score with reverse set, i.e. a stable descending sort, modelled by
insertion sort with the non-strict descending comparison (each record is
inserted before the first strictly smaller one, after all earlier
records with greater or equal score). -/
def rankResults (results : List ResumeResult) : List ResumeResult :=
  List.insertionSort rankLE results

theorem orderedInsert_filter_ne (a : ResumeResult) (q : ℚ)
    (ha : a.scores.overall_score ≠ q) : ∀ l : List ResumeResult,
    (List.orderedInsert rankLE a l).filter
        (fun x => decide (x.scores.overall_score = q)) =
      l.filter (fun x => decide (x.scores.overall_score = q)) := by
  intro l
  induction l with
  | nil => simp [ha]
  | cons b l ih =>
    by_cases hr : rankLE a b
    · rw [List.orderedInsert_of_le rankLE _ hr]
      simp [ha]
    · simp only [List.orderedInsert]
      rw [if_neg hr, List.filter_cons, List.filter_cons, ih]

theorem orderedInsert_filter_eq (a : ResumeResult) (q : ℚ)
    (ha : a.scores.overall_score = q) : ∀ l : List ResumeResult,
    (List.orderedInsert rankLE a l).filter
        (fun x => decide (x.scores.overall_score = q)) =
      a :: l.filter (fun x => decide (x.scores.overall_score = q)) := by
  intro l
  induction l with
  | nil => simp [ha]
  | cons b l ih =>
    by_cases hr : rankLE a b
    · rw [List.orderedInsert_of_le rankLE _ hr]
      simp [ha]
    · have hb : b.scores.overall_score ≠ q := by
        intro hbq
        exact hr (le_of_eq (by rw [hbq, ha]))
      simp only [List.orderedInsert]
      rw [if_neg hr, List.filter_cons, ih, List.filter_cons]
      simp [hb]

theorem rankResults_filter (q : ℚ) : ∀ l : List ResumeResult,
    (rankResults l).filter (fun x => decide (x.scores.overall_score = q)) =
      l.filter (fun x => decide (x.scores.overall_score = q)) := by
  intro l
  induction l with
  | nil => rfl
  | cons a l ih =>
    unfold rankResults at ih
    show ((List.insertionSort rankLE l).orderedInsert rankLE a).filter _ = _
    by_cases ha : a.scores.overall_score = q
    · rw [orderedInsert_filter_eq a q ha, ih, List.filter_cons]
      simp [ha]
    · rw [orderedInsert_filter_ne a q ha, ih, List.filter_cons]
      simp [ha]

/-- Score record with a given overall score and all other fields zero or
empty, for the ranking example. -/
def sampleScores (q : ℚ) : Scores :=
  { content_similarity := 0, skills_match := 0, education_level := 0,
    experience_level := 0, overall_score := q,
    matched_skills := ∅, missing_skills := ∅ }

def sampleR1 : ResumeResult := ⟨"r1".toList, sampleScores 80⟩

def sampleR2 : ResumeResult := ⟨"r2".toList, sampleScores 95⟩

def sampleR3 : ResumeResult := ⟨"r3".toList, sampleScores 80⟩

/-- C9: the ranking is sorted by overall score descending, is a
permutation of its input, preserves input order within every class of
equal overall scores (stability), and on the example with scores 80, 95,
80 in input order returns the 95-record first and the two 80-records in
their input order. -/
theorem ranking_spec :
    (∀ l : List ResumeResult,
        List.Sorted rankLE (rankResults l) ∧
        List.Perm (rankResults l) l ∧
        (∀ q : ℚ, (rankResults l).filter (fun x => decide (x.scores.overall_score = q)) =
          l.filter (fun x => decide (x.scores.overall_score = q)))) ∧
    rankResults [sampleR1, sampleR2, sampleR3] = [sampleR2, sampleR1, sampleR3] := by
  constructor
  · intro l
    haveI : IsTotal ResumeResult rankLE :=
      ⟨fun a b => le_total b.scores.overall_score a.scores.overall_score⟩
    haveI : IsTrans ResumeResult rankLE :=
      ⟨fun a b c hab hbc => le_trans hbc hab⟩
    exact ⟨List.sorted_insertionSort rankLE l, List.perm_insertionSort rankLE l,
      fun q => rankResults_filter q l⟩
  · have h23 : rankLE sampleR2 sampleR3 := by
      show (80 : ℚ) ≤ 95
      norm_num
    have h12 : ¬ rankLE sampleR1 sampleR2 := by
      show ¬ ((95 : ℚ) ≤ 80)
      norm_num
    have h13 : rankLE sampleR1 sampleR3 := by
      show (80 : ℚ) ≤ 80
      norm_num
    show (((List.orderedInsert rankLE sampleR3 []).orderedInsert rankLE
        sampleR2).orderedInsert rankLE sampleR1) = [sampleR2, sampleR1, sampleR3]
    rw [List.orderedInsert_nil, List.orderedInsert_of_le rankLE _ h23]
    simp only [List.orderedInsert, if_neg h12, if_pos h13]

end Main

end ResumeScanner
